import Mathlib

/-!
Verification of the text-chunking core of the email-personalisation app
(`create_context_chunks` in `src/app.py`).

The chunker depends on an external tokenizer (tiktoken), modelled here as an
abstract `Tokenizer` capability (encode : String → token ids, decode : token
ids → String), exactly the capability boundary of the design.

Python-specific operations are modelled faithfully:
* `markdown_text.split('\n\n')`   → `pySplitParas` (non-overlapping left-to-right
  scan for the exact two-newline separator, keeping empty pieces);
* `str.strip()`                   → `pyStrip` (drop leading/trailing whitespace;
  the inputs of interest use ASCII whitespace, covered by `Char.isWhitespace`);
* `para_tokens[start:end]`        → `pySlice` (full Python slice semantics with
  clamping and negative indices);
* `'\n\n'.join(...)`              → `joinSep`.

The oversized-paragraph `while` loop of the source is not structurally
terminating (and in fact diverges for some configurations), so it is embedded
with an explicit fuel parameter: a `none` result means the loop was still
running when the fuel ran out; divergence is expressed as `none` for every
fuel value, termination as `some` for all sufficiently large fuel.
-/

namespace EmailAgent

/-- The tokenizer capability consumed by the chunker: `encode` turns text into
a list of token ids, `decode` turns token ids back into text. -/
structure Tokenizer where
  encode : String → List Nat
  decode : List Nat → String

/-- Model of Python `str.strip()`: remove leading and trailing whitespace. -/
def pyStrip (s : String) : String :=
  String.mk (((s.data.dropWhile Char.isWhitespace).reverse.dropWhile Char.isWhitespace).reverse)

/-- Helper for `pySplitParas`: left-to-right scan consuming non-overlapping
occurrences of the two-character separator `"\n\n"`, accumulating the current
piece in reverse. -/
def splitParasAux : List Char → List Char → List String
  | [], acc => [String.mk acc.reverse]
  | [c], acc => [String.mk (c :: acc).reverse]
  | c1 :: c2 :: rest, acc =>
    if c1 = '\n' ∧ c2 = '\n' then String.mk acc.reverse :: splitParasAux rest []
    else splitParasAux (c2 :: rest) (c1 :: acc)

/-- Model of Python `markdown_text.split('\n\n')`. -/
def pySplitParas (s : String) : List String := splitParasAux s.data []

/-- Model of Python `'\n\n'.join(list)`. -/
def joinSep : List String → String
  | [] => ""
  | [p] => p
  | p :: ps => p ++ "\n\n" ++ joinSep ps

/-- Model of the Python slice `l[i:j]` (step 1): negative indices count from
the end, and both indices are clamped to `[0, len]`. -/
def pySlice (l : List Nat) (i j : Int) : List Nat :=
  let n : Int := l.length
  let i1 : Nat := (if i < 0 then max (n + i) 0 else min i n).toNat
  let j1 : Nat := (if j < 0 then max (n + j) 0 else min j n).toNat
  (l.take j1).drop i1

/-- The index arithmetic of the oversized-paragraph `while` loop of
`create_context_chunks` (src/app.py lines 78-87), recorded as the list of
`(start_index, end_index)` windows it emits.  `fuel` bounds the number of
iterations; `none` means the loop was still running when fuel ran out. -/
def windowSpans (n mt ov : Int) : Nat → Int → Option (List (Int × Int))
  | 0, start => if start < n then none else some []
  | fuel + 1, start =>
    if start < n then
      let e := min (start + mt) n
      let next := start + (mt - ov)
      if next ≥ e then some [(start, e)]
      else (windowSpans n mt ov fuel next).map (fun l => (start, e) :: l)
    else some []

/-- The oversized-paragraph `while` loop of `create_context_chunks`
(src/app.py lines 78-87): repeatedly decode the token window
`para_tokens[start_index:end_index]`, advance `start_index` by
`max_tokens - overlap`, and break once the new start reaches the old window
end. -/
def windowLoop (tk : Tokenizer) (paraTokens : List Nat) (mt ov : Int) :
    Nat → Int → Option (List String)
  | 0, start => if start < (paraTokens.length : Int) then none else some []
  | fuel + 1, start =>
    if start < (paraTokens.length : Int) then
      let e := min (start + mt) (paraTokens.length : Int)
      let piece := tk.decode (pySlice paraTokens start e)
      let next := start + (mt - ov)
      if next ≥ e then some [piece]
      else (windowLoop tk paraTokens mt ov fuel next).map (fun l => piece :: l)
    else some []

/-- The mutable state of the paragraph loop of `create_context_chunks`:
`chunks`, `current_chunk_para_list` and `current_token_count`. -/
structure ChunkState where
  chunks : List String
  pending : List String
  count : Int

/-- Initial loop state: no chunks, empty accumulator, zero running count. -/
def initState : ChunkState := ⟨[], [], 0⟩

/-- One iteration of the `for para in paragraphs` loop of
`create_context_chunks` (src/app.py lines 61-103). -/
def processPara (tk : Tokenizer) (max_tokens overlap : Int) (fuel : Nat)
    (st : ChunkState) (para0 : String) : Option ChunkState :=
  let para := pyStrip para0
  if para = "" then some st
  else
    let para_tokens := tk.encode para
    let para_token_count : Int := para_tokens.length
    if para_token_count > max_tokens then
      let st1 := if st.pending = [] then st
        else { chunks := st.chunks ++ [joinSep st.pending], pending := [], count := 0 }
      match windowLoop tk para_tokens max_tokens overlap fuel 0 with
      | none => none
      | some ws => some { st1 with chunks := st1.chunks ++ ws }
    else if st.count + para_token_count + (if st.pending = [] then 0 else 2) > max_tokens then
      some { chunks := st.chunks ++ (if st.pending = [] then [] else [joinSep st.pending]),
             pending := [para], count := para_token_count }
    else
      let pending1 := st.pending ++ [para]
      some { chunks := st.chunks, pending := pending1,
             count := st.count + para_token_count + (if pending1.length > 1 then 2 else 0) }

/-- The whole `for para in paragraphs` loop. -/
def runParas (tk : Tokenizer) (max_tokens overlap : Int) (fuel : Nat) :
    ChunkState → List String → Option ChunkState
  | st, [] => some st
  | st, p :: ps =>
    match processPara tk max_tokens overlap fuel st p with
    | none => none
    | some st1 => runParas tk max_tokens overlap fuel st1 ps

/-- `create_context_chunks` (src/app.py lines 51-113): split the text on the
blank-line separator, run the greedy accumulation loop, flush the remaining
accumulator, and fall back to `[""]` when no chunk was produced. -/
def create_context_chunks (tk : Tokenizer) (markdown_text : String)
    (max_tokens overlap : Int) (fuel : Nat) : Option (List String) :=
  match runParas tk max_tokens overlap fuel initState (pySplitParas markdown_text) with
  | none => none
  | some st =>
    let chunks := st.chunks ++ (if st.pending = [] then [] else [joinSep st.pending])
    some (if chunks = [] then [""] else chunks)

/-- The non-empty stripped paragraphs of a document, in order. -/
def nonEmptyParas (s : String) : List String :=
  ((pySplitParas s).map pyStrip).filter (fun p => p ≠ "")

/-- The running token count the source maintains for a pending accumulator:
the first paragraph contributes its own token count, each later one its own
count plus a fixed 2-token separator surcharge. -/
def joinCost (tk : Tokenizer) : List String → Int
  | [] => 0
  | p :: ps => ((tk.encode p).length : Int) + (ps.map (fun q => ((tk.encode q).length : Int) + 2)).sum

/-- A concrete deterministic tokenizer with one token per character; it
round-trips exactly and its join cost matches the 2-token surcharge. -/
def charTokenizer : Tokenizer :=
  ⟨fun s => s.data.map Char.toNat, fun l => String.mk (l.map Char.ofNat)⟩

/-- A concrete round-tripping tokenizer with a single BPE-style merge: the
string `"aa"` encodes to the one token `0`; every other string encodes
character by character (shifted by one so that token `0` is reserved). -/
def mergeTokenizer : Tokenizer :=
  ⟨fun s => if s = "aa" then [0] else s.data.map (fun c => c.toNat + 1),
   fun l => if l = [0] then "aa" else String.mk (l.map (fun n => Char.ofNat (n - 1)))⟩

/-- A tokenizer charging one hundred tokens per character, used to build
paragraphs with large prescribed token counts. -/
def hundredTokenizer : Tokenizer :=
  ⟨fun s => List.replicate (100 * s.length) 0, fun _ => ""⟩

/-! ### Lemmas about the Python slice model -/

theorem pySlice_eq (l : List Nat) (i j : Int) (hi : 0 ≤ i) (hin : i ≤ (l.length : Int))
    (hj : 0 ≤ j) (hjn : j ≤ (l.length : Int)) :
    pySlice l i j = (l.take j.toNat).drop i.toNat := by
  simp only [pySlice]
  have h1 : (if i < 0 then max ((l.length : Int) + i) 0 else min i (l.length : Int)).toNat
      = i.toNat := by
    rw [if_neg (by omega)]
    omega
  have h2 : (if j < 0 then max ((l.length : Int) + j) 0 else min j (l.length : Int)).toNat
      = j.toNat := by
    rw [if_neg (by omega)]
    omega
  rw [h1, h2]

theorem pySlice_length_le (l : List Nat) (i j mt : Int) (hi : 0 ≤ i) (hj0 : 0 ≤ j)
    (hj : j ≤ i + mt) (hmt : 0 ≤ mt) : ((pySlice l i j).length : Int) ≤ mt := by
  simp only [pySlice, List.length_drop, List.length_take]
  split <;> split <;> omega

theorem pySlice_ne_nil (l : List Nat) (i j : Int) (hi : 0 ≤ i) (hij : i < j)
    (hjn : j ≤ (l.length : Int)) : pySlice l i j ≠ [] := by
  have hlen : (pySlice l i j).length ≠ 0 := by
    simp only [pySlice, List.length_drop, List.length_take]
    split <;> split <;> omega
  intro h
  exact hlen (by rw [h]; rfl)

theorem pySlice_subset (l : List Nat) (i j : Int) : pySlice l i j ⊆ l := by
  unfold pySlice
  intro x hx
  exact (List.take_subset _ _) ((List.drop_subset _ _) hx)

/-! ### Lemmas about the oversized-paragraph windowing loop -/

theorem windowLoop_eq_spans (tk : Tokenizer) (ts : List Nat) (mt ov : Int) :
    ∀ (fuel : Nat) (start : Int),
      windowLoop tk ts mt ov fuel start =
        (windowSpans (ts.length : Int) mt ov fuel start).map
          (List.map (fun ab => tk.decode (pySlice ts ab.1 ab.2))) := by
  intro fuel
  induction fuel with
  | zero =>
    intro start
    simp only [windowLoop, windowSpans]
    split <;> simp
  | succ f ih =>
    intro start
    simp only [windowLoop, windowSpans]
    split
    · split
      · simp
      · rw [ih]
        cases windowSpans (ts.length : Int) mt ov f (start + (mt - ov)) <;> simp
    · simp

theorem windowSpans_isSome (n mt ov : Int) (hstep : 1 ≤ mt - ov) :
    ∀ (fuel : Nat) (start : Int), (n - start).toNat ≤ fuel →
      ∃ l, windowSpans n mt ov fuel start = some l := by
  intro fuel
  induction fuel with
  | zero =>
    intro s h
    refine ⟨[], ?_⟩
    simp only [windowSpans]
    rw [if_neg (by omega)]
  | succ f ih =>
    intro s h
    by_cases hs : s < n
    · simp only [windowSpans, if_pos hs]
      by_cases hb : s + (mt - ov) ≥ min (s + mt) n
      · exact ⟨_, by rw [if_pos hb]⟩
      · obtain ⟨l, hl⟩ := ih (s + (mt - ov)) (by omega)
        rw [if_neg hb, hl]
        exact ⟨_, rfl⟩
    · exact ⟨[], by simp only [windowSpans, if_neg hs]⟩

theorem windowSpans_spec (n mt ov : Int) (hstep : 1 ≤ mt - ov) :
    ∀ (fuel : Nat) (s : Int), 0 ≤ s → ∀ l, windowSpans n mt ov fuel s = some l →
      (∀ ab ∈ l, 0 ≤ ab.1 ∧ ab.1 < n ∧ ab.2 = min (ab.1 + mt) n) ∧
      List.Chain' (fun a b => b.1 = a.1 + (mt - ov) ∧ b.1 < a.2) l ∧
      l.head? = (if s < n then some (s, min (s + mt) n) else none) ∧
      (∀ hne : l ≠ [], 0 < ov → (l.getLast hne).2 = n) := by
  intro fuel
  induction fuel with
  | zero =>
    intro s hs l hl
    simp only [windowSpans] at hl
    by_cases hsn : s < n
    · rw [if_pos hsn] at hl
      exact absurd hl (by simp)
    · rw [if_neg hsn] at hl
      cases hl
      refine ⟨by simp, by simp, by rw [if_neg hsn]; rfl, ?_⟩
      intro hne
      exact absurd rfl hne
  | succ f ih =>
    intro s hs l hl
    simp only [windowSpans] at hl
    by_cases hsn : s < n
    · rw [if_pos hsn] at hl
      by_cases hb : s + (mt - ov) ≥ min (s + mt) n
      · rw [if_pos hb] at hl
        cases hl
        refine ⟨?_, by simp, by rw [if_pos hsn]; rfl, ?_⟩
        · intro ab hab
          simp only [List.mem_singleton] at hab
          subst hab
          exact ⟨hs, hsn, rfl⟩
        · intro hne hov
          simp only [List.getLast_singleton]
          omega
      · rw [if_neg hb] at hl
        rcases hrec : windowSpans n mt ov f (s + (mt - ov)) with _ | l2
        · rw [hrec] at hl
          exact absurd hl (by simp)
        · rw [hrec] at hl
          simp only [Option.map_some', Option.some.injEq] at hl
          subst hl
          obtain ⟨hmem2, hchain2, hhead2, hlast2⟩ := ih (s + (mt - ov)) (by omega) l2 hrec
          have hs2n : s + (mt - ov) < n := by omega
          have hhead2' : l2.head? = some (s + (mt - ov), min (s + (mt - ov) + mt) n) := by
            rw [hhead2, if_pos hs2n]
          have hl2ne : l2 ≠ [] := by
            intro h
            rw [h] at hhead2'
            exact absurd hhead2' (by simp)
          refine ⟨?_, ?_, by rw [if_pos hsn]; rfl, ?_⟩
          · intro ab hab
            rcases List.mem_cons.mp hab with h | h
            · subst h
              exact ⟨hs, hsn, rfl⟩
            · exact hmem2 ab h
          · rw [List.chain'_cons']
            refine ⟨?_, hchain2⟩
            intro y hy
            rw [hhead2'] at hy
            simp only [Option.mem_def, Option.some.injEq] at hy
            subst hy
            exact ⟨rfl, by omega⟩
          · intro hne hov
            rw [List.getLast_cons hl2ne]
            exact hlast2 hl2ne hov
    · rw [if_neg hsn] at hl
      cases hl
      refine ⟨by simp, by simp, by rw [if_neg hsn]; rfl, ?_⟩
      intro hne
      exact absurd rfl hne

/-- Transfer a `Chain'` relation along facts known for every member of the
list. -/
theorem chain'_mem_imp {α : Type} {R S : α → α → Prop} {M : α → Prop} :
    ∀ (l : List α), (∀ a ∈ l, M a) → List.Chain' R l →
      (∀ a b, M a → M b → R a b → S a b) → List.Chain' S l := by
  intro l
  induction l with
  | nil => intro _ _ _; simp
  | cons a t ih =>
    intro hm hc himp
    rw [List.chain'_cons'] at hc ⊢
    obtain ⟨h1, h2⟩ := hc
    refine ⟨?_, ih (fun x hx => hm x (List.mem_cons_of_mem _ hx)) h2 himp⟩
    intro b hb
    exact himp a b (hm a (by simp)) (hm b (List.mem_cons_of_mem _ (List.mem_of_mem_head? hb)))
      (h1 b hb)

/-! ### Properties of the concrete tokenizers -/

theorem charTokenizer_encode_length (s : String) :
    (charTokenizer.encode s).length = s.length := by
  cases s with
  | mk data => simp [charTokenizer]

theorem charTokenizer_roundtrip (s : String) :
    charTokenizer.decode (charTokenizer.encode s) = s := by
  cases s with
  | mk data =>
    simp only [charTokenizer, List.map_map]
    rw [String.ext_iff]
    simp [Function.comp_def]

theorem charTokenizer_encode_decode (l : List Nat)
    (h : ∀ x ∈ l, ∃ c : Char, c.toNat = x) :
    charTokenizer.encode (charTokenizer.decode l) = l := by
  simp only [charTokenizer, List.map_map]
  induction l with
  | nil => rfl
  | cons x t ih =>
    obtain ⟨c, hc⟩ := h x (by simp)
    simp only [List.map_cons, List.cons.injEq]
    refine ⟨?_, ih (fun y hy => h y (List.mem_cons_of_mem _ hy))⟩
    simp [Function.comp_def, ← hc, Char.ofNat_toNat]

theorem charTokenizer_decode_ne_empty (l : List Nat) (h : l ≠ []) :
    charTokenizer.decode l ≠ "" := by
  intro h0
  simp only [charTokenizer] at h0
  apply h
  have h1 : l.map Char.ofNat = [] := congrArg String.data h0
  simpa using h1

theorem mergeTokenizer_roundtrip (s : String) :
    mergeTokenizer.decode (mergeTokenizer.encode s) = s := by
  by_cases h : s = "aa"
  · subst h
    rfl
  · cases s with
    | mk data =>
      simp only [mergeTokenizer, if_neg h]
      have hne : data.map (fun c => c.toNat + 1) ≠ [0] := by
        intro hbad
        rcases data with _ | ⟨c, t⟩
        · simp at hbad
        · rcases t with _ | ⟨d, u⟩
          · simp at hbad
          · simp at hbad
      rw [if_neg hne]
      apply String.ext
      simp [Function.comp_def, Char.ofNat_toNat]

/-! ### Lemmas about joining paragraphs and the running token count -/

theorem joinSep_cons_cons (p q : String) (t : List String) :
    joinSep (p :: q :: t) = p ++ "\n\n" ++ joinSep (q :: t) := rfl

theorem joinSep_ne_empty (p : String) (ps : List String) (h : p ≠ "") :
    joinSep (p :: ps) ≠ "" := by
  have hp : p.length ≠ 0 := by
    intro h0
    apply h
    cases p with
    | mk data =>
      simp only [String.length_mk, List.length_eq_zero] at h0
      rw [h0]
  have hlen : (joinSep (p :: ps)).length ≠ 0 := by
    cases ps with
    | nil => exact hp
    | cons q t =>
      rw [joinSep_cons_cons]
      simp only [String.length_append]
      omega
  intro h0
  rw [h0] at hlen
  exact hlen rfl

theorem joinCost_cons (tk : Tokenizer) (p q : String) (t : List String) :
    joinCost tk (p :: q :: t) =
      ((tk.encode p).length : Int) + 2 + joinCost tk (q :: t) := by
  simp only [joinCost, List.map_cons, List.sum_cons]
  ring

theorem joinCost_append_single (tk : Tokenizer) (ps : List String) (p : String) :
    joinCost tk (ps ++ [p]) =
      joinCost tk ps + ((tk.encode p).length : Int) + (if ps = [] then 0 else 2) := by
  induction ps with
  | nil => simp [joinCost]
  | cons q t ih =>
    cases t with
    | nil =>
      simp only [List.nil_append, List.cons_append]
      rw [joinCost_cons]
      simp [joinCost]
      ring
    | cons r u =>
      simp only [List.cons_append] at ih ⊢
      rw [joinCost_cons, joinCost_cons, ih]
      simp only [if_neg (by simp : ¬ (r :: u = [])), if_neg (by simp : ¬ (q :: r :: u = []))]
      ring

theorem joinCost_nonneg (tk : Tokenizer) (ps : List String) : 0 ≤ joinCost tk ps := by
  induction ps with
  | nil => simp [joinCost]
  | cons p t ih =>
    cases t with
    | nil => simp [joinCost]
    | cons q u =>
      rw [joinCost_cons]
      have := Int.ofNat_nonneg (tk.encode p).length
      omega

theorem charTokenizer_join_le (p : String) (ps : List String) :
    ((charTokenizer.encode (joinSep (p :: ps))).length : Int) ≤
      joinCost charTokenizer (p :: ps) := by
  induction ps generalizing p with
  | nil =>
    rw [show joinSep [p] = p from rfl]
    simp [joinCost, charTokenizer_encode_length]
  | cons q t ih =>
    rw [joinSep_cons_cons, joinCost_cons]
    have h2 := ih q
    simp only [charTokenizer_encode_length, String.length_append] at h2 ⊢
    have : ("\n\n" : String).length = 2 := rfl
    omega

theorem charTokenizer_window_le (s : String) (i j : Int) :
    ((charTokenizer.encode (charTokenizer.decode
        (pySlice (charTokenizer.encode s) i j))).length : Int) ≤
      (pySlice (charTokenizer.encode s) i j).length := by
  rw [charTokenizer_encode_decode]
  intro x hx
  have hx2 : x ∈ charTokenizer.encode s := pySlice_subset _ _ _ hx
  simp only [charTokenizer, List.mem_map] at hx2
  obtain ⟨c, _, hc⟩ := hx2
  exact ⟨c, hc⟩

/-! ### Structural lemmas about the paragraph loop -/

theorem processPara_blank (tk : Tokenizer) (mt ov : Int) (fuel : Nat) (st : ChunkState)
    (p : String) (h0 : pyStrip p = "") : processPara tk mt ov fuel st p = some st := by
  simp [processPara, h0]

theorem processPara_oversized_nopending (tk : Tokenizer) (mt ov : Int) (fuel : Nat)
    (st : ChunkState) (p : String) (h0 : pyStrip p ≠ "")
    (hgt : ((tk.encode (pyStrip p)).length : Int) > mt) (hpend : st.pending = []) :
    processPara tk mt ov fuel st p =
      (windowLoop tk (tk.encode (pyStrip p)) mt ov fuel 0).map
        (fun ws => { chunks := st.chunks ++ ws, pending := st.pending, count := st.count }) := by
  simp only [processPara, if_neg h0]
  rw [if_pos hgt, if_pos hpend]
  rcases hw : windowLoop tk (tk.encode (pyStrip p)) mt ov fuel 0 with _ | ws <;> simp [hw]

theorem processPara_oversized_pending (tk : Tokenizer) (mt ov : Int) (fuel : Nat)
    (st : ChunkState) (p : String) (h0 : pyStrip p ≠ "")
    (hgt : ((tk.encode (pyStrip p)).length : Int) > mt) (hpend : ¬ st.pending = []) :
    processPara tk mt ov fuel st p =
      (windowLoop tk (tk.encode (pyStrip p)) mt ov fuel 0).map
        (fun ws => { chunks := (st.chunks ++ [joinSep st.pending]) ++ ws,
                     pending := [], count := 0 }) := by
  simp only [processPara, if_neg h0]
  rw [if_pos hgt, if_neg hpend]
  rcases hw : windowLoop tk (tk.encode (pyStrip p)) mt ov fuel 0 with _ | ws <;> simp [hw]

theorem processPara_not_oversized (tk : Tokenizer) (mt ov : Int) (fuel : Nat)
    (st : ChunkState) (p : String) (h0 : pyStrip p ≠ "")
    (hle : ((tk.encode (pyStrip p)).length : Int) ≤ mt) :
    processPara tk mt ov fuel st p =
      (if st.count + ((tk.encode (pyStrip p)).length : Int) +
            (if st.pending = [] then 0 else 2) > mt
       then some { chunks := st.chunks ++ (if st.pending = [] then [] else [joinSep st.pending]),
                   pending := [pyStrip p], count := ((tk.encode (pyStrip p)).length : Int) }
       else some { chunks := st.chunks, pending := st.pending ++ [pyStrip p],
                   count := st.count + ((tk.encode (pyStrip p)).length : Int) +
                     (if (st.pending ++ [pyStrip p]).length > 1 then 2 else 0) }) := by
  simp only [processPara, if_neg h0]
  rw [if_neg (by omega)]

theorem runParas_cons (tk : Tokenizer) (mt ov : Int) (fuel : Nat) (st : ChunkState)
    (p : String) (ps : List String) :
    runParas tk mt ov fuel st (p :: ps) =
      (processPara tk mt ov fuel st p).bind (fun st1 => runParas tk mt ov fuel st1 ps) := by
  rcases h : processPara tk mt ov fuel st p with _ | st1 <;> simp [runParas, h]

theorem runParas_blank (tk : Tokenizer) (mt ov : Int) (fuel : Nat) :
    ∀ (raws : List String) (st : ChunkState), (∀ p ∈ raws, pyStrip p = "") →
      runParas tk mt ov fuel st raws = some st := by
  intro raws
  induction raws with
  | nil => intro st _; rfl
  | cons p ps ih =>
    intro st h
    rw [runParas_cons, processPara_blank tk mt ov fuel st p (h p (by simp))]
    exact ih st (fun q hq => h q (List.mem_cons_of_mem _ hq))

theorem runParas_isSome (tk : Tokenizer) (mt ov : Int) (fuel : Nat) :
    ∀ (raws : List String) (st : ChunkState),
      (∀ p ∈ raws, pyStrip p ≠ "" → ((tk.encode (pyStrip p)).length : Int) ≤ mt) →
      ∃ st1, runParas tk mt ov fuel st raws = some st1 := by
  intro raws
  induction raws with
  | nil => intro st _; exact ⟨st, rfl⟩
  | cons p ps ih =>
    intro st h
    rw [runParas_cons]
    by_cases h0 : pyStrip p = ""
    · rw [processPara_blank tk mt ov fuel st p h0]
      exact ih st (fun q hq => h q (List.mem_cons_of_mem _ hq))
    · rw [processPara_not_oversized tk mt ov fuel st p h0 (h p (by simp) h0)]
      split
      all_goals split
      all_goals exact ih _ (fun q hq => h q (List.mem_cons_of_mem _ hq))

/-- No run of the chunker returns an empty list of chunks. -/
theorem ccc_ne_nil (tk : Tokenizer) (text : String) (mt ov : Int) (fuel : Nat)
    (cs : List String) (h : create_context_chunks tk text mt ov fuel = some cs) :
    cs ≠ [] := by
  unfold create_context_chunks at h
  rcases hr : runParas tk mt ov fuel initState (pySplitParas text) with _ | st
  · rw [hr] at h
    cases h
  · rw [hr] at h
    simp only [Option.some.injEq] at h
    subst h
    by_cases hc : st.chunks ++ (if st.pending = [] then [] else [joinSep st.pending]) = []
    · rw [if_pos hc]
      simp
    · rw [if_neg hc]
      exact hc

/-- A document consisting of one single oversized paragraph goes straight to
the windowing loop. -/
theorem ccc_single_oversized (tk : Tokenizer) (text : String) (mt ov : Int) (fuel : Nat)
    (hsplit : pySplitParas text = [text]) (hstrip : pyStrip text = text) (hne : text ≠ "")
    (hover : ((tk.encode text).length : Int) > mt) :
    create_context_chunks tk text mt ov fuel =
      (windowLoop tk (tk.encode text) mt ov fuel 0).map
        (fun ws => if ws = [] then [""] else ws) := by
  unfold create_context_chunks
  rw [hsplit, runParas_cons,
    processPara_oversized_nopending tk mt ov fuel initState text
      (by rw [hstrip]; exact hne) (by rw [hstrip]; exact hover) rfl]
  rw [hstrip]
  rcases hw : windowLoop tk (tk.encode text) mt ov fuel 0 with _ | ws
  · simp
  · simp only [Option.map_some', Option.some_bind]
    show (match runParas tk mt ov fuel _ [] with
      | none => none
      | some st =>
        some (if st.chunks ++ (if st.pending = [] then [] else [joinSep st.pending]) = []
          then [""] else st.chunks ++ (if st.pending = [] then [] else [joinSep st.pending])))
      = some (if ws = [] then [""] else ws)
    simp [runParas, initState]

/-! ### Claim C3 -/

/-- Claim C3 (refuted; code bug): the spec says the windowing loop stops after
at most one terminal window whenever `max_tokens - overlap ≤ 0`.  In fact, for
`max_tokens = 2`, `overlap = 2` on a 5-token paragraph the loop never
advances (`start_index` stays `0`) and never triggers the break guard, so it
runs forever: the fuelled embedding returns `none` for every fuel amount,
both at the loop level and for the whole of `create_context_chunks`. -/
theorem c3_divergence : ∀ fuel : Nat,
    windowSpans 5 2 2 fuel 0 = none ∧
    create_context_chunks charTokenizer "abcde" 2 2 fuel = none := by
  have hspan : ∀ fuel : Nat, windowSpans 5 2 2 fuel 0 = none := by
    intro fuel
    induction fuel with
    | zero => decide
    | succ f ih =>
      show windowSpans 5 2 2 (f + 1) 0 = none
      simp only [windowSpans]
      rw [if_pos (by decide : (0:Int) < 5),
        if_neg (by decide : ¬ ((0:Int) + (2 - 2) ≥ min ((0:Int) + 2) 5))]
      rw [show ((0:Int) + (2 - 2)) = 0 by decide, ih]
      rfl
  intro fuel
  refine ⟨hspan fuel, ?_⟩
  rw [ccc_single_oversized charTokenizer "abcde" 2 2 fuel (by decide) (by decide) (by decide)
    (by decide)]
  rw [windowLoop_eq_spans]
  rw [show ((charTokenizer.encode "abcde").length : Int) = 5 by decide]
  rw [hspan fuel]
  rfl

/-! ### Claim C4 -/

/-- Claim C4 (confirmed): under any valid configuration the empty document and
a whitespace-only document each produce exactly `[""]`, and no input ever
produces an empty chunk sequence. -/
theorem c4_empty_input (tk : Tokenizer) (max_tokens overlap : Int) (fuel : Nat)
    (_h1 : 0 < max_tokens) (_h2 : 0 ≤ overlap) (_h3 : overlap < max_tokens) :
    create_context_chunks tk "" max_tokens overlap fuel = some [""] ∧
    create_context_chunks tk "   \n\n  " max_tokens overlap fuel = some [""] ∧
    (∀ (text : String) (cs : List String),
      create_context_chunks tk text max_tokens overlap fuel = some cs → cs ≠ []) := by
  refine ⟨?_, ?_, fun text cs h => ccc_ne_nil tk text max_tokens overlap fuel cs h⟩
  · unfold create_context_chunks
    rw [runParas_blank tk max_tokens overlap fuel (pySplitParas "") initState (by decide)]
    rfl
  · unfold create_context_chunks
    rw [runParas_blank tk max_tokens overlap fuel (pySplitParas "   \n\n  ") initState
      (by decide)]
    rfl

/-- Witness for C4 at a concrete configuration. -/
theorem c4_empty_input_witness :
    ((0:Int) < 3 ∧ (0:Int) ≤ 1 ∧ (1:Int) < 3) ∧
    create_context_chunks charTokenizer "" 3 1 5 = some [""] ∧
    create_context_chunks charTokenizer "   \n\n  " 3 1 5 = some [""] :=
  ⟨⟨by decide, by decide, by decide⟩,
   (c4_empty_input charTokenizer 3 1 5 (by decide) (by decide) (by decide)).1,
   (c4_empty_input charTokenizer 3 1 5 (by decide) (by decide) (by decide)).2.1⟩

/-! ### Claim C6 -/

/-- Claim C6 counterexample: `overlap = 3` with `max_tokens = 3` is an invalid
configuration (`overlap` is outside `[0, max_tokens)`), yet the call performs
no validation: it returns the chunk list `["ab"]` instead of failing before
producing chunks. -/
theorem c6_config_counterexample :
    ¬ ((0:Int) ≤ 3 ∧ (3:Int) < 3) ∧
    create_context_chunks charTokenizer "ab" 3 3 1 = some ["ab"] :=
  ⟨by decide, by decide⟩

/-- Claim C6 (amended): `create_context_chunks` performs no configuration
validation at all and raises no error: for every configuration, valid or
invalid, it returns a chunk list whenever no stripped paragraph exceeds
`max_tokens` (pathological configurations are never rejected or clamped). -/
theorem c6_config_amended (tk : Tokenizer) (text : String) (max_tokens overlap : Int)
    (fuel : Nat)
    (hfit : ∀ p ∈ nonEmptyParas text, ((tk.encode p).length : Int) ≤ max_tokens) :
    ∃ cs, create_context_chunks tk text max_tokens overlap fuel = some cs := by
  have hall : ∀ p ∈ pySplitParas text, pyStrip p ≠ "" →
      ((tk.encode (pyStrip p)).length : Int) ≤ max_tokens := by
    intro p hp hne
    apply hfit
    unfold nonEmptyParas
    rw [List.mem_filter]
    exact ⟨List.mem_map_of_mem _ hp, by simpa using hne⟩
  obtain ⟨st1, hrun⟩ := runParas_isSome tk max_tokens overlap fuel (pySplitParas text)
    initState hall
  unfold create_context_chunks
  rw [hrun]
  exact ⟨_, rfl⟩

/-- Witness for the amended C6: an invalid configuration (`overlap = 20`
greater than `max_tokens = 10`) still returns chunks. -/
theorem c6_config_witness :
    (∀ p ∈ nonEmptyParas "ab\n\ncd", ((charTokenizer.encode p).length : Int) ≤ 10) ∧
    ∃ cs, create_context_chunks charTokenizer "ab\n\ncd" 10 20 3 = some cs :=
  ⟨by decide, c6_config_amended charTokenizer "ab\n\ncd" 10 20 3 (by decide)⟩

/-! ### Claim C9 -/

/-- Claim C9 (confirmed): for an oversized paragraph with `overlap = 0` the
break guard fires right after the first window (`start_index` advances to
exactly `end_index`), so the loop emits exactly one window — the decoding of
the paragraph's first `max_tokens` tokens — and the index span `(0, mt)` shows
that the remaining tokens of the paragraph appear in no emitted window; on a
single-paragraph document the whole call returns just that one chunk. -/
theorem c9_overlap_zero (tk : Tokenizer) (tokens : List Nat) (text : String) (mt : Int)
    (fuel : Nat) (hmt : 0 < mt) (hover : mt < (tokens.length : Int)) (hfuel : 1 ≤ fuel)
    (hsplit : pySplitParas text = [text]) (hstrip : pyStrip text = text) (hne : text ≠ "")
    (htokens : tk.encode text = tokens) :
    windowSpans (tokens.length : Int) mt 0 fuel 0 = some [(0, mt)] ∧
    windowLoop tk tokens mt 0 fuel 0 = some [tk.decode (tokens.take mt.toNat)] ∧
    create_context_chunks tk text mt 0 fuel =
      some [tk.decode (tokens.take mt.toNat)] := by
  have hn0 : (0:Int) < (tokens.length : Int) := by omega
  have hspan : windowSpans (tokens.length : Int) mt 0 fuel 0 = some [(0, mt)] := by
    rcases fuel with _ | f
    · omega
    · simp only [windowSpans]
      rw [if_pos hn0, if_pos (by omega : (0:Int) + (mt - 0) ≥ min (0 + mt) (tokens.length : Int))]
      have hmin : min ((0:Int) + mt) (tokens.length : Int) = mt := by omega
      rw [hmin]
  have hslice : pySlice tokens 0 mt = tokens.take mt.toNat := by
    rw [pySlice_eq tokens 0 mt (by omega) (by omega) (by omega) (by omega)]
    simp
  have hloop : windowLoop tk tokens mt 0 fuel 0 = some [tk.decode (tokens.take mt.toNat)] := by
    rw [windowLoop_eq_spans, hspan]
    simp [hslice]
  refine ⟨hspan, hloop, ?_⟩
  rw [ccc_single_oversized tk text mt 0 fuel hsplit hstrip hne (by rw [htokens]; omega)]
  rw [htokens, hloop]
  simp

/-- Witness for C9 at a concrete input: `"abcd"` with `max_tokens = 2`,
`overlap = 0` loses `"cd"`. -/
theorem c9_overlap_zero_witness :
    ((0:Int) < 2 ∧ (2:Int) < ((charTokenizer.encode "abcd").length : Int) ∧ 1 ≤ 3) ∧
    create_context_chunks charTokenizer "abcd" 2 0 3 =
      some [charTokenizer.decode ((charTokenizer.encode "abcd").take (2:Int).toNat)] :=
  ⟨⟨by decide, by decide, by decide⟩,
   (c9_overlap_zero charTokenizer (charTokenizer.encode "abcd") "abcd" 2 3 (by decide)
     (by decide) (by decide) (by decide) (by decide) (by decide) rfl).2.2⟩

/-! ### Claim C7 -/

/-- Claim C7 (confirmed): with the minimal advancing step
`overlap = max_tokens - 1` on a paragraph of `5 * max_tokens` tokens, the
windowing loop terminates within `5 * max_tokens` iterations (that much fuel
already suffices) and the starts of the emitted windows strictly increase. -/
theorem c7_termination (tk : Tokenizer) (tokens : List Nat) (text : String) (mt : Int)
    (fuel : Nat) (hmt : 1 ≤ mt) (hlen : (tokens.length : Int) = 5 * mt)
    (hfuel : (5 * mt).toNat ≤ fuel)
    (hsplit : pySplitParas text = [text]) (hstrip : pyStrip text = text) (hne : text ≠ "")
    (htokens : tk.encode text = tokens) :
    (∃ l, windowSpans (tokens.length : Int) mt (mt - 1) fuel 0 = some l ∧
      List.Chain' (fun a b => a.1 < b.1) l) ∧
    ∃ cs, create_context_chunks tk text mt (mt - 1) fuel = some cs := by
  have hstep : 1 ≤ mt - (mt - 1) := by omega
  obtain ⟨l, hl⟩ := windowSpans_isSome (tokens.length : Int) mt (mt - 1) hstep fuel 0
    (by omega)
  obtain ⟨_, hchain, _, _⟩ := windowSpans_spec (tokens.length : Int) mt (mt - 1) hstep fuel 0
    (by omega) l hl
  refine ⟨⟨l, hl, ?_⟩, ?_⟩
  · exact hchain.imp (fun a b hab => by omega)
  · rw [ccc_single_oversized tk text mt (mt - 1) fuel hsplit hstrip hne
      (by rw [htokens]; omega)]
    rw [htokens, windowLoop_eq_spans, hl]
    exact ⟨_, rfl⟩

/-- Witness for C7: `max_tokens = 2`, `overlap = 1`, ten tokens, fuel ten. -/
theorem c7_termination_witness :
    ((1:Int) ≤ 2 ∧ ((charTokenizer.encode "abcdefghij").length : Int) = 5 * 2 ∧
      ((5:Int) * 2).toNat ≤ 10) ∧
    ∃ cs, create_context_chunks charTokenizer "abcdefghij" 2 (2 - 1) 10 = some cs :=
  ⟨⟨by decide, by decide, by decide⟩,
   (c7_termination charTokenizer (charTokenizer.encode "abcdefghij") "abcdefghij" 2 10
     (by decide) (by decide) (by decide) (by decide) (by decide) (by decide) rfl).2⟩

/-! ### Claim C5 -/

/-- Claim C5 counterexample: a 15-token paragraph (`3 * max_tokens` with
`max_tokens = 5`) split with `overlap = 4` gives trailing windows clipped at
the paragraph end; the consecutive windows `(11,15)` and `(12,15)` share only
3 tokens, not `overlap = 4`, so the claim's "each consecutive pair shares
exactly o tokens" fails. -/
theorem c5_overlap_counterexample :
    ((0:Int) < 4 ∧ (4:Int) < 5 ∧
      ((charTokenizer.encode "abcdefghijklmno").length : Int) = 3 * 5) ∧
    windowSpans 15 5 4 20 0 = some
      [(0,5),(1,6),(2,7),(3,8),(4,9),(5,10),(6,11),(7,12),(8,13),(9,14),(10,15),
       (11,15),(12,15),(13,15),(14,15)] ∧
    ¬ List.Chain' (fun a b : Int × Int => min a.2 b.2 - max a.1 b.1 = (4:Int))
      [(0,5),(1,6),(2,7),(3,8),(4,9),(5,10),(6,11),(7,12),(8,13),(9,14),(10,15),
       (11,15),(12,15),(13,15),(14,15)] ∧
    create_context_chunks charTokenizer "abcdefghijklmno" 5 4 20 = some
      ["abcde","bcdef","cdefg","defgh","efghi","fghij","ghijk","hijkl","ijklm","jklmn",
       "klmno","lmno","mno","no","o"] := by
  refine ⟨⟨by decide, by decide, by decide⟩, by decide, ?_, by decide⟩
  intro hch
  rw [List.chain'_iff_get] at hch
  exact absurd (hch 11 (by decide)) (by decide)

/-- Claim C5 (amended): for a single paragraph of `3 * max_tokens` tokens with
`0 < overlap < max_tokens`, the chunker emits at least two windows; the first
window starts at token 0, successive window starts lie strictly inside the
preceding window, the last window ends at the paragraph's token count (full
coverage), and each consecutive pair of windows shares exactly
`min overlap (n - nextStart)` tokens — that is, exactly `overlap` tokens
except for trailing windows clipped by the paragraph's end, which share their
whole (shorter) extent. -/
theorem c5_overlap_amended (tk : Tokenizer) (tokens : List Nat) (text : String)
    (mt ov : Int) (fuel : Nat) (hov : 0 < ov) (hovm : ov < mt)
    (hlen : (tokens.length : Int) = 3 * mt) (hfuel : (3 * mt).toNat ≤ fuel)
    (hsplit : pySplitParas text = [text]) (hstrip : pyStrip text = text) (hne : text ≠ "")
    (htokens : tk.encode text = tokens) :
    ∃ l, windowSpans (tokens.length : Int) mt ov fuel 0 = some l ∧
      2 ≤ l.length ∧
      l.head? = some (0, mt) ∧
      (∀ hne2 : l ≠ [], (l.getLast hne2).2 = (tokens.length : Int)) ∧
      List.Chain' (fun a b => a.1 < b.1 ∧ b.1 < a.2 ∧
        min a.2 b.2 - max a.1 b.1 = min ov ((tokens.length : Int) - b.1)) l ∧
      create_context_chunks tk text mt ov fuel =
        some (l.map (fun ab => tk.decode (pySlice tokens ab.1 ab.2))) := by
  have hstep : 1 ≤ mt - ov := by omega
  have hmt1 : 1 ≤ mt := by omega
  obtain ⟨l, hl⟩ := windowSpans_isSome (tokens.length : Int) mt ov hstep fuel 0 (by omega)
  obtain ⟨hmem, hchain, hhead, hlast⟩ :=
    windowSpans_spec (tokens.length : Int) mt ov hstep fuel 0 (by omega) l hl
  have hn0 : (0:Int) < (tokens.length : Int) := by omega
  have hhead2 : l.head? = some (0, mt) := by
    rw [hhead, if_pos hn0]
    have hmin : min ((0:Int) + mt) (tokens.length : Int) = mt := by omega
    rw [hmin]
  have hlne : l ≠ [] := by
    intro h0
    rw [h0] at hhead2
    exact absurd hhead2 (by simp)
  have hlen2 : 2 ≤ l.length := by
    rcases l with _ | ⟨a, t⟩
    · exact absurd rfl hlne
    · rcases t with _ | ⟨b, u⟩
      · have ha : a = (0, mt) := by simpa using hhead2
        have he := hlast (by simp) hov
        rw [ha] at he
        simp at he
        omega
      · simp
  refine ⟨l, hl, hlen2, hhead2, fun hne2 => hlast hne2 hov, ?_, ?_⟩
  · refine chain'_mem_imp l hmem hchain ?_
    intro a b ha hb hab
    obtain ⟨ha1, ha2, ha3⟩ := ha
    obtain ⟨hb1, hb2, hb3⟩ := hb
    obtain ⟨hab1, hab2⟩ := hab
    refine ⟨by omega, hab2, by omega⟩
  · rw [ccc_single_oversized tk text mt ov fuel hsplit hstrip hne (by rw [htokens]; omega)]
    rw [htokens, windowLoop_eq_spans, hl]
    simp only [Option.map_some']
    rw [if_neg (by simpa using hlne)]

/-- Witness for the amended C5: six tokens, `max_tokens = 2`, `overlap = 1`. -/
theorem c5_overlap_witness :
    ((0:Int) < 1 ∧ (1:Int) < 2 ∧ ((charTokenizer.encode "abcdef").length : Int) = 3 * 2 ∧
      ((3:Int) * 2).toNat ≤ 8) ∧
    ∃ l, windowSpans ((charTokenizer.encode "abcdef").length : Int) 2 1 8 0 = some l ∧
      2 ≤ l.length ∧
      l.head? = some (0, 2) ∧
      (∀ hne2 : l ≠ [], (l.getLast hne2).2 = ((charTokenizer.encode "abcdef").length : Int)) ∧
      List.Chain' (fun a b => a.1 < b.1 ∧ b.1 < a.2 ∧
        min a.2 b.2 - max a.1 b.1 =
          min 1 (((charTokenizer.encode "abcdef").length : Int) - b.1)) l ∧
      create_context_chunks charTokenizer "abcdef" 2 1 8 =
        some (l.map (fun ab =>
          charTokenizer.decode (pySlice (charTokenizer.encode "abcdef") ab.1 ab.2))) :=
  ⟨⟨by decide, by decide, by decide, by decide⟩,
   c5_overlap_amended charTokenizer (charTokenizer.encode "abcdef") "abcdef" 2 1 8
     (by decide) (by decide) (by decide) (by decide) (by decide) (by decide) (by decide) rfl⟩

/-! ### Claim C8 -/

/-- Claim C8 (confirmed): two paragraphs of 2900 and 200 tokens with
`max_tokens = 3000` and any valid overlap yield exactly two chunks, each a
paragraph alone, because of the 2-token separator surcharge
(2900 + 2 + 200 = 3102 > 3000). -/
theorem c8_two_paragraphs (tk : Tokenizer) (text a b : String) (overlap : Int) (fuel : Nat)
    (hsplit : pySplitParas text = [a, b])
    (ha : pyStrip a = a) (hb : pyStrip b = b) (hane : a ≠ "") (hbne : b ≠ "")
    (hla : ((tk.encode a).length : Int) = 2900) (hlb : ((tk.encode b).length : Int) = 200)
    (_hov0 : 0 ≤ overlap) (_hovm : overlap < 3000) :
    create_context_chunks tk text 3000 overlap fuel = some [a, b] := by
  have h0a : pyStrip a ≠ "" := by rw [ha]; exact hane
  have h0b : pyStrip b ≠ "" := by rw [hb]; exact hbne
  have hlea : ((tk.encode (pyStrip a)).length : Int) ≤ 3000 := by rw [ha]; omega
  have hleb : ((tk.encode (pyStrip b)).length : Int) ≤ 3000 := by rw [hb]; omega
  have h1 : processPara tk 3000 overlap fuel initState a =
      some ⟨[], [a], 2900⟩ := by
    rw [processPara_not_oversized tk 3000 overlap fuel initState a h0a hlea, ha, hla]
    rw [if_neg (by norm_num [initState])]
    rfl
  have h2 : processPara tk 3000 overlap fuel ⟨[], [a], 2900⟩ b =
      some ⟨[a], [b], 200⟩ := by
    rw [processPara_not_oversized tk 3000 overlap fuel ⟨[], [a], 2900⟩ b h0b hleb, hb, hlb]
    rw [if_pos (by norm_num)]
    rfl
  unfold create_context_chunks
  rw [hsplit, runParas_cons, h1, Option.some_bind, runParas_cons, h2, Option.some_bind]
  rfl

/-- Witness for C8: a 29-character and a 2-character paragraph under the
hundred-tokens-per-character tokenizer (2900 and 200 tokens). -/
theorem c8_two_paragraphs_witness :
    (pySplitParas "aaaaaaaaaaaaaaaaaaaaaaaaaaaaa\n\nbb" =
        ["aaaaaaaaaaaaaaaaaaaaaaaaaaaaa", "bb"] ∧
      ((hundredTokenizer.encode "aaaaaaaaaaaaaaaaaaaaaaaaaaaaa").length : Int) = 2900 ∧
      ((hundredTokenizer.encode "bb").length : Int) = 200 ∧
      (0:Int) ≤ 100 ∧ (100:Int) < 3000) ∧
    create_context_chunks hundredTokenizer "aaaaaaaaaaaaaaaaaaaaaaaaaaaaa\n\nbb" 3000 100 7 =
      some ["aaaaaaaaaaaaaaaaaaaaaaaaaaaaa", "bb"] := by
  have hla : ((hundredTokenizer.encode "aaaaaaaaaaaaaaaaaaaaaaaaaaaaa").length : Int)
      = 2900 := by
    show ((List.replicate (100 * ("aaaaaaaaaaaaaaaaaaaaaaaaaaaaa" : String).length)
      (0:Nat)).length : Int) = 2900
    rw [List.length_replicate]
    decide
  have hlb : ((hundredTokenizer.encode "bb").length : Int) = 200 := by
    show ((List.replicate (100 * ("bb" : String).length) (0:Nat)).length : Int) = 200
    rw [List.length_replicate]
    decide
  refine ⟨⟨by decide, hla, hlb, by decide, by decide⟩, ?_⟩
  exact c8_two_paragraphs hundredTokenizer "aaaaaaaaaaaaaaaaaaaaaaaaaaaaa\n\nbb"
    "aaaaaaaaaaaaaaaaaaaaaaaaaaaaa" "bb" 100 7 (by decide) (by decide) (by decide)
    (by decide) (by decide) hla hlb (by decide) (by decide)

/-! ### Claim C1 -/

/-- Every chunk emitted by the windowing loop re-encodes to at most
`max_tokens` tokens, provided re-encoding a decoded window never produces
more tokens than the window holds. -/
theorem windowLoop_chunks_le (tk : Tokenizer) (para : String) (mt ov : Int) (fuel : Nat)
    (hmt : 0 < mt) (hstep : 1 ≤ mt - ov)
    (hwin : ∀ (s : String) (i j : Int),
      ((tk.encode (tk.decode (pySlice (tk.encode s) i j))).length : Int) ≤
        (pySlice (tk.encode s) i j).length)
    (ws : List String) (hws : windowLoop tk (tk.encode para) mt ov fuel 0 = some ws) :
    ∀ c ∈ ws, ((tk.encode c).length : Int) ≤ mt := by
  rw [windowLoop_eq_spans] at hws
  rcases hsp : windowSpans (((tk.encode para).length : Int)) mt ov fuel 0 with _ | l
  · rw [hsp] at hws
    cases hws
  · rw [hsp] at hws
    simp only [Option.map_some', Option.some.injEq] at hws
    subst hws
    obtain ⟨hmem, -, -, -⟩ :=
      windowSpans_spec (((tk.encode para).length : Int)) mt ov hstep fuel 0 (by omega) l hsp
    intro c hc
    rw [List.mem_map] at hc
    obtain ⟨ab, habl, habc⟩ := hc
    obtain ⟨hab1, hab2, hab3⟩ := hmem ab habl
    subst habc
    calc ((tk.encode (tk.decode (pySlice (tk.encode para) ab.1 ab.2))).length : Int)
        ≤ ((pySlice (tk.encode para) ab.1 ab.2).length : Int) := hwin para ab.1 ab.2
      _ ≤ mt := pySlice_length_le _ ab.1 ab.2 mt hab1 (by omega) (by omega) (by omega)

/-- The budget invariant of the paragraph loop: the running count equals the
surcharge-based cost of the pending accumulator, that cost stays within
budget, and every flushed chunk re-encodes within budget. -/
theorem runParas_budget (tk : Tokenizer) (mt ov : Int) (fuel : Nat)
    (hmt : 0 < mt) (hstep : 1 ≤ mt - ov)
    (hjoin : ∀ p ps, ((tk.encode (joinSep (p :: ps))).length : Int) ≤ joinCost tk (p :: ps))
    (hwin : ∀ (s : String) (i j : Int),
      ((tk.encode (tk.decode (pySlice (tk.encode s) i j))).length : Int) ≤
        (pySlice (tk.encode s) i j).length) :
    ∀ (raws : List String) (st : ChunkState),
      st.count = joinCost tk st.pending → joinCost tk st.pending ≤ mt →
      (∀ c ∈ st.chunks, ((tk.encode c).length : Int) ≤ mt) →
      ∀ st1, runParas tk mt ov fuel st raws = some st1 →
        st1.count = joinCost tk st1.pending ∧ joinCost tk st1.pending ≤ mt ∧
        (∀ c ∈ st1.chunks, ((tk.encode c).length : Int) ≤ mt) := by
  intro raws
  induction raws with
  | nil =>
    intro st hc hb hch st1 h
    simp only [runParas, Option.some.injEq] at h
    subst h
    exact ⟨hc, hb, hch⟩
  | cons p ps ih =>
    intro st hc hb hch st1 h
    rw [runParas_cons] at h
    by_cases h0 : pyStrip p = ""
    · rw [processPara_blank tk mt ov fuel st p h0] at h
      exact ih st hc hb hch st1 (by simpa using h)
    · by_cases hbig : ((tk.encode (pyStrip p)).length : Int) > mt
      · by_cases hpend : st.pending = []
        · rw [processPara_oversized_nopending tk mt ov fuel st p h0 hbig hpend] at h
          rcases hw : windowLoop tk (tk.encode (pyStrip p)) mt ov fuel 0 with _ | ws
          · rw [hw] at h
            cases h
          · rw [hw] at h
            simp only [Option.map_some', Option.some_bind] at h
            refine ih ⟨st.chunks ++ ws, st.pending, st.count⟩ hc hb ?_ st1 h
            intro c hcm
            rw [List.mem_append] at hcm
            rcases hcm with hcm | hcm
            · exact hch c hcm
            · exact windowLoop_chunks_le tk (pyStrip p) mt ov fuel hmt hstep hwin ws hw c hcm
        · rw [processPara_oversized_pending tk mt ov fuel st p h0 hbig hpend] at h
          rcases hw : windowLoop tk (tk.encode (pyStrip p)) mt ov fuel 0 with _ | ws
          · rw [hw] at h
            cases h
          · rw [hw] at h
            simp only [Option.map_some', Option.some_bind] at h
            refine ih _ rfl ?_ ?_ st1 h
            · simp only [joinCost]
              omega
            · intro c hcm
              rw [List.mem_append, List.mem_append] at hcm
              rcases hcm with (hcm | hcm) | hcm
              · exact hch c hcm
              · rw [List.mem_singleton] at hcm
                subst hcm
                rcases hsp : st.pending with _ | ⟨q, t⟩
                · exact absurd hsp hpend
                · rw [hsp] at hb
                  calc ((tk.encode (joinSep (q :: t))).length : Int)
                      ≤ joinCost tk (q :: t) := hjoin q t
                    _ ≤ mt := hb
              · exact windowLoop_chunks_le tk (pyStrip p) mt ov fuel hmt hstep hwin ws hw c hcm
      · have hle : ((tk.encode (pyStrip p)).length : Int) ≤ mt := by omega
        rw [processPara_not_oversized tk mt ov fuel st p h0 hle] at h
        by_cases hov : st.count + ((tk.encode (pyStrip p)).length : Int) +
            (if st.pending = [] then 0 else 2) > mt
        · -- overflow branch: flush and restart
          rw [if_pos hov, Option.some_bind] at h
          refine ih _ ?_ ?_ ?_ st1 h
          · show ((tk.encode (pyStrip p)).length : Int) = joinCost tk [pyStrip p]
            simp only [joinCost, List.map_nil, List.sum_nil]
            omega
          · show joinCost tk [pyStrip p] ≤ mt
            simp only [joinCost, List.map_nil, List.sum_nil]
            omega
          · show ∀ c ∈ st.chunks ++ (if st.pending = [] then [] else [joinSep st.pending]),
              ((tk.encode c).length : Int) ≤ mt
            intro c hcm
            rw [List.mem_append] at hcm
            rcases hcm with hcm | hcm
            · exact hch c hcm
            · by_cases hpend : st.pending = []
              · rw [if_pos hpend] at hcm
                simp at hcm
              · rw [if_neg hpend] at hcm
                rw [List.mem_singleton] at hcm
                subst hcm
                rcases hsp : st.pending with _ | ⟨q, t⟩
                · exact absurd hsp hpend
                · rw [hsp] at hb
                  calc ((tk.encode (joinSep (q :: t))).length : Int)
                      ≤ joinCost tk (q :: t) := hjoin q t
                    _ ≤ mt := hb
        · -- fits branch: extend the accumulator
          rw [if_neg hov, Option.some_bind] at h
          refine ih ⟨st.chunks, st.pending ++ [pyStrip p],
            st.count + ((tk.encode (pyStrip p)).length : Int) +
              (if (st.pending ++ [pyStrip p]).length > 1 then 2 else 0)⟩ ?_ ?_ hch st1 h
          · show st.count + ((tk.encode (pyStrip p)).length : Int) +
              (if (st.pending ++ [pyStrip p]).length > 1 then 2 else 0) =
                joinCost tk (st.pending ++ [pyStrip p])
            rw [joinCost_append_single, hc]
            by_cases hpend : st.pending = []
            · rw [if_pos hpend, if_neg (by rw [hpend]; simp)]
            · have hlp : 0 < st.pending.length := List.length_pos.mpr hpend
              rw [if_neg hpend,
                if_pos (by simp only [List.length_append, List.length_singleton]; omega)]
          · show joinCost tk (st.pending ++ [pyStrip p]) ≤ mt
            rw [joinCost_append_single]
            by_cases hpend : st.pending = []
            · rw [if_pos hpend]
              rw [if_pos hpend] at hov
              omega
            · rw [if_neg hpend]
              rw [if_neg hpend] at hov
              omega

/-- Claim C1 counterexample: a round-tripping tokenizer with one BPE-style
merge (`"aa"` is a single token) defeats the fixed 2-token separator
surcharge: with `max_tokens = 4`, `overlap = 0` (a valid configuration) the
paragraphs `"aa"` (1 token) and `"b"` (1 token) are packed into the single
chunk `"aa\n\nb"`, whose actual tokenized length is 5 > 4. -/
theorem c1_budget_counterexample :
    ((0:Int) < 4 ∧ (0:Int) ≤ 0 ∧ (0:Int) < 4) ∧
    create_context_chunks mergeTokenizer "aa\n\nb" 4 0 9 = some ["aa\n\nb"] ∧
    ¬ ((mergeTokenizer.encode "aa\n\nb").length : Int) ≤ 4 :=
  ⟨⟨by decide, by decide, by decide⟩, by decide, by decide⟩

/-- Claim C1 (amended): under a valid configuration, every returned chunk's
tokenized length is at most `max_tokens`, provided the tokenizer satisfies
the accounting assumptions the code relies on: encoding the blank-line join
of paragraphs costs at most the sum of the paragraphs' own encodings plus 2
per separator, re-encoding a decoded token window yields at most as many
tokens as the window holds, and the empty string encodes to no tokens. -/
theorem c1_budget_amended (tk : Tokenizer) (text : String) (max_tokens overlap : Int)
    (fuel : Nat) (cs : List String)
    (hmt : 0 < max_tokens) (_hov0 : 0 ≤ overlap) (hovm : overlap < max_tokens)
    (hempty : tk.encode "" = [])
    (hjoin : ∀ p ps, ((tk.encode (joinSep (p :: ps))).length : Int) ≤
      joinCost tk (p :: ps))
    (hwin : ∀ (s : String) (i j : Int),
      ((tk.encode (tk.decode (pySlice (tk.encode s) i j))).length : Int) ≤
        (pySlice (tk.encode s) i j).length)
    (h : create_context_chunks tk text max_tokens overlap fuel = some cs) :
    ∀ c ∈ cs, ((tk.encode c).length : Int) ≤ max_tokens := by
  unfold create_context_chunks at h
  rcases hr : runParas tk max_tokens overlap fuel initState (pySplitParas text) with _ | st
  · rw [hr] at h
    cases h
  · rw [hr] at h
    obtain ⟨hc1, hb1, hch1⟩ := runParas_budget tk max_tokens overlap fuel hmt (by omega)
      hjoin hwin (pySplitParas text) initState rfl
      (by simp only [initState, joinCost]; omega) (by simp [initState]) st hr
    simp only [Option.some.injEq] at h
    subst h
    intro c hcm
    by_cases hchunks : st.chunks ++ (if st.pending = [] then [] else [joinSep st.pending]) = []
    · rw [if_pos hchunks] at hcm
      rw [List.mem_singleton] at hcm
      subst hcm
      rw [hempty]
      simp
      omega
    · rw [if_neg hchunks] at hcm
      rw [List.mem_append] at hcm
      rcases hcm with hcm | hcm
      · exact hch1 c hcm
      · by_cases hpend : st.pending = []
        · rw [if_pos hpend] at hcm
          simp at hcm
        · rw [if_neg hpend] at hcm
          rw [List.mem_singleton] at hcm
          subst hcm
          rcases hsp : st.pending with _ | ⟨q, t⟩
          · exact absurd hsp hpend
          · rw [hsp] at hb1
            calc ((tk.encode (joinSep (q :: t))).length : Int)
                ≤ joinCost tk (q :: t) := hjoin q t
              _ ≤ max_tokens := hb1

/-- Witness for the amended C1: the character tokenizer satisfies all three
accounting assumptions, and on `"ab\n\ncd"` with budget 3 every chunk
re-encodes within budget. -/
theorem c1_budget_witness :
    ((0:Int) < 3 ∧ (0:Int) ≤ 0 ∧ (0:Int) < 3) ∧
    create_context_chunks charTokenizer "ab\n\ncd" 3 0 5 = some ["ab", "cd"] ∧
    ∀ c ∈ ["ab", "cd"], ((charTokenizer.encode c).length : Int) ≤ 3 :=
  ⟨⟨by decide, by decide, by decide⟩, by decide,
   c1_budget_amended charTokenizer "ab\n\ncd" 3 0 5 ["ab", "cd"] (by decide) (by decide)
     (by decide) (by decide) charTokenizer_join_le charTokenizer_window_le (by decide)⟩

/-! ### Claim C2 -/

/-- Reducing `create_context_chunks` once the paragraph loop's final state is
known. -/
theorem ccc_eq (tk : Tokenizer) (text : String) (mt ov : Int) (fuel : Nat)
    (st : ChunkState)
    (h : runParas tk mt ov fuel initState (pySplitParas text) = some st) :
    create_context_chunks tk text mt ov fuel =
      some (if st.chunks ++ (if st.pending = [] then [] else [joinSep st.pending]) = []
        then [""] else st.chunks ++ (if st.pending = [] then [] else [joinSep st.pending])) := by
  unfold create_context_chunks
  rw [h]

/-- The content-preservation invariant of the paragraph loop when no
paragraph is oversized: the chunks flushed so far, as groups of paragraphs,
together with the pending accumulator, partition exactly the non-empty
stripped paragraphs consumed so far, in order. -/
theorem runParas_partition (tk : Tokenizer) (mt ov : Int) (fuel : Nat) :
    ∀ (raws : List String) (st : ChunkState) (pss : List (List String)),
      st.chunks = pss.map joinSep → (∀ g ∈ pss, g ≠ []) →
      (∀ p ∈ raws, pyStrip p ≠ "" → ((tk.encode (pyStrip p)).length : Int) ≤ mt) →
      ∃ (pss1 : List (List String)) (st1 : ChunkState),
        runParas tk mt ov fuel st raws = some st1 ∧
        st1.chunks = pss1.map joinSep ∧ (∀ g ∈ pss1, g ≠ []) ∧
        pss1.flatten ++ st1.pending =
          pss.flatten ++ st.pending ++ ((raws.map pyStrip).filter (fun q => q ≠ "")) := by
  intro raws
  induction raws with
  | nil =>
    intro st pss hch hg _
    exact ⟨pss, st, rfl, hch, hg, by simp⟩
  | cons p ps ih =>
    intro st pss hch hg hfit
    rw [runParas_cons]
    by_cases h0 : pyStrip p = ""
    · rw [processPara_blank tk mt ov fuel st p h0, Option.some_bind]
      obtain ⟨pss1, st1, h1, h2, h3, h4⟩ :=
        ih st pss hch hg (fun q hq => hfit q (List.mem_cons_of_mem _ hq))
      refine ⟨pss1, st1, h1, h2, h3, ?_⟩
      rw [h4]
      simp [List.filter_cons, h0]
    · have hle := hfit p (by simp) h0
      rw [processPara_not_oversized tk mt ov fuel st p h0 hle]
      by_cases hov : st.count + ((tk.encode (pyStrip p)).length : Int) +
          (if st.pending = [] then 0 else 2) > mt
      · rw [if_pos hov, Option.some_bind]
        by_cases hpend : st.pending = []
        · rw [if_pos hpend, List.append_nil]
          obtain ⟨pss1, st1, h1, h2, h3, h4⟩ := ih ⟨st.chunks, [pyStrip p],
            ((tk.encode (pyStrip p)).length : Int)⟩ pss hch hg
            (fun q hq => hfit q (List.mem_cons_of_mem _ hq))
          refine ⟨pss1, st1, h1, h2, h3, ?_⟩
          rw [h4, hpend]
          simp [List.filter_cons, h0]
        · rw [if_neg hpend]
          obtain ⟨pss1, st1, h1, h2, h3, h4⟩ := ih ⟨st.chunks ++ [joinSep st.pending],
            [pyStrip p], ((tk.encode (pyStrip p)).length : Int)⟩ (pss ++ [st.pending])
            (by rw [List.map_append]; show st.chunks ++ _ = _; rw [hch]; rfl)
            (by
              intro g hgm
              rw [List.mem_append] at hgm
              rcases hgm with hgm | hgm
              · exact hg g hgm
              · rw [List.mem_singleton] at hgm
                subst hgm
                exact hpend)
            (fun q hq => hfit q (List.mem_cons_of_mem _ hq))
          refine ⟨pss1, st1, h1, h2, h3, ?_⟩
          rw [h4]
          simp [List.filter_cons, h0]
      · rw [if_neg hov, Option.some_bind]
        obtain ⟨pss1, st1, h1, h2, h3, h4⟩ := ih ⟨st.chunks, st.pending ++ [pyStrip p],
          st.count + ((tk.encode (pyStrip p)).length : Int) +
            (if (st.pending ++ [pyStrip p]).length > 1 then 2 else 0)⟩ pss hch hg
          (fun q hq => hfit q (List.mem_cons_of_mem _ hq))
        refine ⟨pss1, st1, h1, h2, h3, ?_⟩
        rw [h4]
        simp [List.filter_cons, h0]

/-- Claim C2 counterexample: an oversized paragraph with `overlap = 0` (a
valid configuration) is truncated to its first window, so the output
`["ab"]` cannot be partitioned into the input's non-empty stripped
paragraph list `["abcd"]`: the content `"cd"` is lost. -/
theorem c2_content_counterexample :
    ((0:Int) < 2 ∧ (0:Int) ≤ 0 ∧ (0:Int) < 2) ∧
    nonEmptyParas "abcd" = ["abcd"] ∧
    create_context_chunks charTokenizer "abcd" 2 0 9 = some ["ab"] ∧
    ¬ ∃ pss : List (List String), pss.flatten = ["abcd"] ∧
        ["ab"] = pss.map joinSep := by
  refine ⟨⟨by decide, by decide, by decide⟩, by decide, by decide, ?_⟩
  rintro ⟨pss, hflat, hmap⟩
  rcases pss with _ | ⟨g, t⟩
  · simp at hmap
  · rcases t with _ | ⟨g2, t2⟩
    · simp only [List.map_cons, List.map_nil] at hmap
      simp only [List.flatten_cons, List.flatten_nil, List.append_nil] at hflat
      subst hflat
      rw [List.cons.injEq] at hmap
      exact absurd hmap.1.symm (by decide)
    · simp at hmap

/-- Claim C2 (amended): for any input whose non-empty stripped paragraphs all
fit individually (token count ≤ `max_tokens`), the returned chunks are
exactly a partition of the non-empty stripped paragraph sequence into
consecutive non-empty groups joined by the blank-line separator — every
paragraph appears exactly once and in order.  (The counterexample shows this
fails as soon as a paragraph is oversized: with `overlap = 0` the windowing
loop drops everything after the first window.) -/
theorem c2_content_amended (tk : Tokenizer) (text : String) (max_tokens overlap : Int)
    (fuel : Nat)
    (hfit : ∀ p ∈ nonEmptyParas text, ((tk.encode p).length : Int) ≤ max_tokens) :
    ∃ pss : List (List String), pss.flatten = nonEmptyParas text ∧
      (∀ g ∈ pss, g ≠ []) ∧
      create_context_chunks tk text max_tokens overlap fuel =
        some (if pss.isEmpty then [""] else pss.map joinSep) := by
  have hfit2 : ∀ p ∈ pySplitParas text, pyStrip p ≠ "" →
      ((tk.encode (pyStrip p)).length : Int) ≤ max_tokens := by
    intro p hp hne
    apply hfit
    unfold nonEmptyParas
    rw [List.mem_filter]
    exact ⟨List.mem_map_of_mem _ hp, by simpa using hne⟩
  obtain ⟨pss1, st1, h1, h2, h3, h4⟩ := runParas_partition tk max_tokens overlap fuel
    (pySplitParas text) initState [] rfl (by simp) hfit2
  have h4' : pss1.flatten ++ st1.pending = nonEmptyParas text := by
    rw [h4]
    simp [nonEmptyParas, initState]
  rw [ccc_eq tk text max_tokens overlap fuel st1 h1]
  by_cases hpend : st1.pending = []
  · refine ⟨pss1, ?_, h3, ?_⟩
    · rw [← h4', hpend, List.append_nil]
    · rw [if_pos hpend, List.append_nil, h2]
      rcases pss1 with _ | ⟨g, t⟩
      · simp
      · simp
  · refine ⟨pss1 ++ [st1.pending], ?_, ?_, ?_⟩
    · rw [← h4']
      simp
    · intro g hgm
      rw [List.mem_append] at hgm
      rcases hgm with hgm | hgm
      · exact h3 g hgm
      · rw [List.mem_singleton] at hgm
        subst hgm
        exact hpend
    · rw [if_neg hpend, h2, if_neg (by simp)]
      simp

/-- Witness for the amended C2: two small paragraphs fit into one chunk that
is their blank-line join. -/
theorem c2_content_witness :
    (∀ p ∈ nonEmptyParas "ab\n\ncd", ((charTokenizer.encode p).length : Int) ≤ 10) ∧
    ∃ pss : List (List String), pss.flatten = nonEmptyParas "ab\n\ncd" ∧
      (∀ g ∈ pss, g ≠ []) ∧
      create_context_chunks charTokenizer "ab\n\ncd" 10 0 3 =
        some (if pss.isEmpty then [""] else pss.map joinSep) :=
  ⟨by decide, c2_content_amended charTokenizer "ab\n\ncd" 10 0 3 (by decide)⟩

/-! ### Claim C10 -/

/-- Windows of an oversized paragraph decode to non-empty chunks whenever
decoding a non-empty token list is non-empty. -/
theorem windowLoop_chunks_ne_empty (tk : Tokenizer) (para : String) (mt ov : Int)
    (fuel : Nat) (hmt : 0 < mt) (hstep : 1 ≤ mt - ov)
    (hdec : ∀ l : List Nat, l ≠ [] → tk.decode l ≠ "")
    (ws : List String) (hws : windowLoop tk (tk.encode para) mt ov fuel 0 = some ws) :
    ∀ c ∈ ws, c ≠ "" := by
  rw [windowLoop_eq_spans] at hws
  rcases hsp : windowSpans (((tk.encode para).length : Int)) mt ov fuel 0 with _ | l
  · rw [hsp] at hws
    cases hws
  · rw [hsp] at hws
    simp only [Option.map_some', Option.some.injEq] at hws
    subst hws
    obtain ⟨hmem, -, -, -⟩ :=
      windowSpans_spec (((tk.encode para).length : Int)) mt ov hstep fuel 0 (by omega) l hsp
    intro c hc
    rw [List.mem_map] at hc
    obtain ⟨ab, habl, habc⟩ := hc
    obtain ⟨hab1, hab2, hab3⟩ := hmem ab habl
    subst habc
    apply hdec
    exact pySlice_ne_nil _ ab.1 ab.2 hab1 (by omega) (by omega)

/-- The loop starting inside the paragraph emits at least one window. -/
theorem windowSpans_pos_ne_nil (n mt ov : Int) (fuel : Nat) (hn : 0 < n)
    (l : List (Int × Int)) (h : windowSpans n mt ov fuel 0 = some l) : l ≠ [] := by
  rcases fuel with _ | f
  · simp only [windowSpans, if_pos hn] at h
    cases h
  · simp only [windowSpans, if_pos hn] at h
    by_cases hb : (0 : Int) + (mt - ov) ≥ min (0 + mt) n
    · rw [if_pos hb] at h
      cases h
      simp
    · rw [if_neg hb] at h
      rcases hr : windowSpans n mt ov f (0 + (mt - ov)) with _ | l2
      · rw [hr] at h
        cases h
      · rw [hr] at h
        simp only [Option.map_some', Option.some.injEq] at h
        subst h
        simp

/-- The structural state invariant of the paragraph loop: an empty
accumulator always has a zero running count, every pending paragraph is
non-empty, every flushed chunk is non-empty, and once any content has been
seen the state never becomes fully empty again. -/
theorem runParas_state_inv (tk : Tokenizer) (mt ov : Int) (fuel : Nat)
    (hmt : 0 < mt) (hstep : 1 ≤ mt - ov)
    (hdec : ∀ l : List Nat, l ≠ [] → tk.decode l ≠ "") :
    ∀ (raws : List String) (st : ChunkState),
      (st.pending = [] → st.count = 0) →
      (∀ q ∈ st.pending, q ≠ "") →
      (∀ c ∈ st.chunks, c ≠ "") →
      ∀ st1, runParas tk mt ov fuel st raws = some st1 →
        (st1.pending = [] → st1.count = 0) ∧
        (∀ q ∈ st1.pending, q ≠ "") ∧
        (∀ c ∈ st1.chunks, c ≠ "") ∧
        ((st.chunks ≠ [] ∨ st.pending ≠ [] ∨
            ((raws.map pyStrip).filter (fun q => q ≠ "")) ≠ []) →
          (st1.chunks ≠ [] ∨ st1.pending ≠ [])) := by
  intro raws
  induction raws with
  | nil =>
    intro st hz hq hc st1 h
    simp only [runParas, Option.some.injEq] at h
    subst h
    refine ⟨hz, hq, hc, ?_⟩
    intro hcontent
    rcases hcontent with hx | hx | hx
    · exact Or.inl hx
    · exact Or.inr hx
    · simp at hx
  | cons p ps ih =>
    intro st hz hq hc st1 h
    rw [runParas_cons] at h
    by_cases h0 : pyStrip p = ""
    · rw [processPara_blank tk mt ov fuel st p h0, Option.some_bind] at h
      obtain ⟨k1, k2, k3, k4⟩ := ih st hz hq hc st1 h
      refine ⟨k1, k2, k3, ?_⟩
      intro hcontent
      apply k4
      rcases hcontent with hx | hx | hx
      · exact Or.inl hx
      · exact Or.inr (Or.inl hx)
      · refine Or.inr (Or.inr ?_)
        simp only [List.map_cons, List.filter_cons, h0] at hx
        simpa using hx
    · by_cases hbig : ((tk.encode (pyStrip p)).length : Int) > mt
      · have hws_ne : ∀ ws, windowLoop tk (tk.encode (pyStrip p)) mt ov fuel 0 = some ws →
            ws ≠ [] := by
          intro ws hws
          rw [windowLoop_eq_spans] at hws
          rcases hsp : windowSpans (((tk.encode (pyStrip p)).length : Int)) mt ov fuel 0
            with _ | l
          · rw [hsp] at hws
            cases hws
          · rw [hsp] at hws
            simp only [Option.map_some', Option.some.injEq] at hws
            subst hws
            have := windowSpans_pos_ne_nil _ mt ov fuel (by omega) l hsp
            simpa using this
        by_cases hpend : st.pending = []
        · rw [processPara_oversized_nopending tk mt ov fuel st p h0 hbig hpend] at h
          rcases hw : windowLoop tk (tk.encode (pyStrip p)) mt ov fuel 0 with _ | ws
          · rw [hw] at h
            cases h
          · rw [hw] at h
            simp only [Option.map_some', Option.some_bind] at h
            obtain ⟨k1, k2, k3, k4⟩ := ih ⟨st.chunks ++ ws, st.pending, st.count⟩ hz hq
              (by
                intro c hcm
                rw [List.mem_append] at hcm
                rcases hcm with hcm | hcm
                · exact hc c hcm
                · exact windowLoop_chunks_ne_empty tk (pyStrip p) mt ov fuel hmt hstep hdec
                    ws hw c hcm)
              st1 h
            refine ⟨k1, k2, k3, ?_⟩
            intro _
            apply k4
            refine Or.inl ?_
            have := hws_ne ws hw
            simp [this]
        · rw [processPara_oversized_pending tk mt ov fuel st p h0 hbig hpend] at h
          rcases hw : windowLoop tk (tk.encode (pyStrip p)) mt ov fuel 0 with _ | ws
          · rw [hw] at h
            cases h
          · rw [hw] at h
            simp only [Option.map_some', Option.some_bind] at h
            obtain ⟨k1, k2, k3, k4⟩ := ih ⟨(st.chunks ++ [joinSep st.pending]) ++ ws, [], 0⟩
              (fun _ => rfl) (by simp)
              (by
                intro c hcm
                rw [List.mem_append, List.mem_append] at hcm
                rcases hcm with (hcm | hcm) | hcm
                · exact hc c hcm
                · rw [List.mem_singleton] at hcm
                  subst hcm
                  rcases hsp : st.pending with _ | ⟨q, t⟩
                  · exact absurd hsp hpend
                  · exact joinSep_ne_empty q t (hq q (by rw [hsp]; simp))
                · exact windowLoop_chunks_ne_empty tk (pyStrip p) mt ov fuel hmt hstep hdec
                    ws hw c hcm)
              st1 h
            refine ⟨k1, k2, k3, ?_⟩
            intro _
            apply k4
            refine Or.inl ?_
            simp
      · have hle : ((tk.encode (pyStrip p)).length : Int) ≤ mt := by omega
        rw [processPara_not_oversized tk mt ov fuel st p h0 hle] at h
        by_cases hov : st.count + ((tk.encode (pyStrip p)).length : Int) +
            (if st.pending = [] then 0 else 2) > mt
        · rw [if_pos hov, Option.some_bind] at h
          obtain ⟨k1, k2, k3, k4⟩ := ih ⟨st.chunks ++
              (if st.pending = [] then [] else [joinSep st.pending]), [pyStrip p],
              ((tk.encode (pyStrip p)).length : Int)⟩
            (by intro hx; cases hx)
            (by
              intro q hqm
              rw [List.mem_singleton] at hqm
              subst hqm
              exact h0)
            (by
              intro c hcm
              rw [List.mem_append] at hcm
              rcases hcm with hcm | hcm
              · exact hc c hcm
              · by_cases hpend : st.pending = []
                · rw [if_pos hpend] at hcm
                  simp at hcm
                · rw [if_neg hpend] at hcm
                  rw [List.mem_singleton] at hcm
                  subst hcm
                  rcases hsp : st.pending with _ | ⟨q, t⟩
                  · exact absurd hsp hpend
                  · exact joinSep_ne_empty q t (hq q (by rw [hsp]; simp)))
            st1 h
          refine ⟨k1, k2, k3, ?_⟩
          intro _
          apply k4
          refine Or.inr (Or.inl ?_)
          simp
        · rw [if_neg hov, Option.some_bind] at h
          obtain ⟨k1, k2, k3, k4⟩ := ih ⟨st.chunks, st.pending ++ [pyStrip p],
              st.count + ((tk.encode (pyStrip p)).length : Int) +
                (if (st.pending ++ [pyStrip p]).length > 1 then 2 else 0)⟩
            (by intro hx; simp at hx)
            (by
              intro q hqm
              rw [List.mem_append] at hqm
              rcases hqm with hqm | hqm
              · exact hq q hqm
              · rw [List.mem_singleton] at hqm
                subst hqm
                exact h0)
            hc st1 h
          refine ⟨k1, k2, k3, ?_⟩
          intro _
          apply k4
          refine Or.inr (Or.inl ?_)
          simp

/-- Claim C10 (confirmed): (a) whenever the overflow branch's condition can
fire for a paragraph that fits on its own, the accumulator is non-empty — an
empty accumulator always has running count zero, so a fitting paragraph
never overflows an empty accumulator; (b) consequently every returned chunk
is non-empty except in the empty-document fallback case, given a valid
configuration and a tokenizer that never decodes a non-empty token window to
the empty string. -/
theorem c10_accumulator_invariant (tk : Tokenizer) (max_tokens overlap : Int) (fuel : Nat)
    (hmt : 0 < max_tokens) (hovm : overlap < max_tokens)
    (hdec : ∀ l : List Nat, l ≠ [] → tk.decode l ≠ "") :
    (∀ (raws : List String) (st1 : ChunkState),
      runParas tk max_tokens overlap fuel initState raws = some st1 →
        (st1.pending = [] → st1.count = 0) ∧
        (∀ ptc : Int, 0 ≤ ptc → ptc ≤ max_tokens →
          st1.count + ptc + (if st1.pending = [] then 0 else 2) > max_tokens →
            st1.pending ≠ [])) ∧
    (∀ (text : String) (cs : List String),
      create_context_chunks tk text max_tokens overlap fuel = some cs →
        (nonEmptyParas text = [] → cs = [""]) ∧
        (nonEmptyParas text ≠ [] → ∀ c ∈ cs, c ≠ "")) := by
  have hstep : 1 ≤ max_tokens - overlap := by omega
  constructor
  · intro raws st1 h
    obtain ⟨k1, -, -, -⟩ := runParas_state_inv tk max_tokens overlap fuel hmt hstep hdec
      raws initState (fun _ => rfl) (by simp [initState]) (by simp [initState]) st1 h
    refine ⟨k1, ?_⟩
    intro ptc h0 hle hcond hpend
    have hcz := k1 hpend
    rw [if_pos hpend] at hcond
    omega
  · intro text cs h
    unfold create_context_chunks at h
    rcases hr : runParas tk max_tokens overlap fuel initState (pySplitParas text) with _ | st
    · rw [hr] at h
      cases h
    · rw [hr] at h
      simp only [Option.some.injEq] at h
      subst h
      obtain ⟨k1, k2, k3, k4⟩ := runParas_state_inv tk max_tokens overlap fuel hmt hstep hdec
        (pySplitParas text) initState (fun _ => rfl) (by simp [initState])
        (by simp [initState]) st hr
      constructor
      · intro hempty
        have hblank : ∀ p ∈ pySplitParas text, pyStrip p = "" := by
          intro p hp
          unfold nonEmptyParas at hempty
          rw [List.filter_eq_nil_iff] at hempty
          have := hempty (pyStrip p) (List.mem_map_of_mem _ hp)
          simpa using this
        rw [runParas_blank tk max_tokens overlap fuel (pySplitParas text) initState hblank]
          at hr
        cases hr
        rfl
      · intro hnonempty
        have hne : st.chunks ≠ [] ∨ st.pending ≠ [] := by
          apply k4
          refine Or.inr (Or.inr ?_)
          unfold nonEmptyParas at hnonempty
          exact hnonempty
        have hchne : st.chunks ++ (if st.pending = [] then [] else [joinSep st.pending])
            ≠ [] := by
          rcases hne with hne | hne
          · intro hx
            rw [List.append_eq_nil] at hx
            exact hne hx.1
          · rw [if_neg hne]
            intro hx
            rw [List.append_eq_nil] at hx
            cases hx.2
        rw [if_neg hchne]
        intro c hcm
        rw [List.mem_append] at hcm
        rcases hcm with hcm | hcm
        · exact k3 c hcm
        · by_cases hpend : st.pending = []
          · rw [if_pos hpend] at hcm
            simp at hcm
          · rw [if_neg hpend] at hcm
            rw [List.mem_singleton] at hcm
            subst hcm
            rcases hsp : st.pending with _ | ⟨q, t⟩
            · exact absurd hsp hpend
            · exact joinSep_ne_empty q t (k2 q (by rw [hsp]; simp))

/-- Witness for C10: a two-paragraph document returns non-empty chunks. -/
theorem c10_accumulator_invariant_witness :
    ((0:Int) < 3 ∧ (0:Int) < 3 ∧ nonEmptyParas "ab\n\ncd" ≠ [] ∧
      create_context_chunks charTokenizer "ab\n\ncd" 3 0 5 = some ["ab", "cd"]) ∧
    ∀ c ∈ ["ab", "cd"], c ≠ "" :=
  ⟨⟨by decide, by decide, by decide, by decide⟩,
   ((c10_accumulator_invariant charTokenizer 3 0 5 (by decide) (by decide)
       charTokenizer_decode_ne_empty).2 "ab\n\ncd" ["ab", "cd"] (by decide)).2 (by decide)⟩

example : pySplitParas "aa\n\nb" = ["aa", "b"] := by decide
example : pySplitParas "" = [""] := by decide
example : pyStrip "   " = "" := by decide
example : create_context_chunks charTokenizer "" 3 1 5 = some [""] := by decide
example : create_context_chunks charTokenizer "abcd" 2 0 9 = some ["ab"] := by decide
example : create_context_chunks charTokenizer "ab\n\ncd" 10 0 9 = some ["ab\n\ncd"] := by decide
example : create_context_chunks mergeTokenizer "aa\n\nb" 4 0 9 = some ["aa\n\nb"] := by decide
example : (mergeTokenizer.encode "aa\n\nb").length = 5 := by decide
example : create_context_chunks charTokenizer "abcdefghij" 2 1 10 =
    some ["ab", "bc", "cd", "de", "ef", "fg", "gh", "hi", "ij", "j"] := by decide

end EmailAgent
